import Mathlib

/-!
Verification of the ue-training repository's ownership model and task
scheduler against its specification.

The repository's example files (Module01_SmartPointers, Module02_TaskSystem)
call into the engine's `TSharedPtr` / `TWeakPtr` / `TUniquePtr` wrappers and
the `UE::Tasks` scheduler; the wrappers and the scheduler themselves are
library code that is not part of the repository, so their operational
behaviour is modelled here from the specification's §3 and §4 operation
descriptions.  Code that does live in the repository —
`FExercise01_ParallelSum_Solution::CalculateParallelSum` and `FFileHandle` —
is embedded directly from the source.
-/

namespace UETraining

/-! ## Ownership model: shared/weak control block

Modelled from the spec: the engine's `TSharedPtr`/`TWeakPtr` control block
is not in the repository.  Per spec §3 and §4.1, a control block carries a
strong counter and a weak counter; `Copy-shared` increments the strong
count, `Drop-shared` decrements it and destroys the wrapped value exactly
when the count reaches zero, `Downgrade` increments the weak count,
`Pin` promotes iff the strong count is positive.  `destroyCount` counts how
many times the wrapped value has been destroyed. -/

structure CBlock where
  strong : Nat
  weak : Nat
  destroyCount : Nat
  deriving DecidableEq, Repr

/-- Modelled from the spec: `Construct-shared(value)` returns a handle with
strong count 1 and weak count 0; the value starts alive. -/
def mkShared : CBlock := ⟨1, 0, 0⟩

/-- Operations a holder of handles on one allocation can perform. -/
inductive SPOp where
  | copy
  | drop
  | downgrade
  | dropWeak
  deriving DecidableEq, Repr

/-- An operation is performable only through a handle that exists: the
strong-handle operations require a live strong handle, dropping a weak
handle requires a weak handle. -/
def spOk (s : CBlock) : SPOp → Bool
  | .copy => 0 < s.strong
  | .drop => 0 < s.strong
  | .downgrade => 0 < s.strong
  | .dropWeak => 0 < s.weak

/-- Modelled from the spec: `Copy-shared` does strong += 1; `Drop-shared`
does strong -= 1 and, if the result is 0, destroys the wrapped value;
`Downgrade` does weak += 1; dropping a weak handle does weak -= 1. -/
def spApply (s : CBlock) : SPOp → CBlock
  | .copy => { s with strong := s.strong + 1 }
  | .drop =>
      if s.strong - 1 = 0 then
        ⟨0, s.weak, s.destroyCount + 1⟩
      else
        { s with strong := s.strong - 1 }
  | .downgrade => { s with weak := s.weak + 1 }
  | .dropWeak => { s with weak := s.weak - 1 }

/-- A sequence of operations is valid when every operation is performable
in the state it meets. -/
def spRunOk (s : CBlock) : List SPOp → Bool
  | [] => true
  | op :: ops => spOk s op && spRunOk (spApply s op) ops

/-- State after a sequence of operations. -/
def spExec (s : CBlock) : List SPOp → CBlock
  | [] => s
  | op :: ops => spExec (spApply s op) ops

/-- Modelled from the spec: `Pin(weak)` atomically test-and-increments — if
the strong count is positive it increments it and returns a shared handle,
otherwise it returns the empty result. -/
def pin (s : CBlock) : Option CBlock :=
  if 0 < s.strong then some { s with strong := s.strong + 1 } else none

/-- The lifecycle invariant of one allocation: the wrapped value has been
destroyed exactly once if the strong count is zero, and not at all while a
strong handle remains. -/
def spInv (s : CBlock) : Prop :=
  s.destroyCount = if s.strong = 0 then 1 else 0

/-! ## Exclusive (move-only) handle

Modelled from the spec: the engine's `TUniquePtr` is not in the repository.
Per spec §3 and §4.1, an exclusive handle either owns a value or is empty,
and the only transfer is a move that nulls the source. -/

/-- Modelled from the spec: `Construct-exclusive(value)` yields a handle
owning the value. -/
def mkUnique {α : Type} (v : α) : Option α := some v

/-- Modelled from the spec: `Move(exclusive)` transfers ownership to the
destination and nulls the source; it never fails.  The result pair is
(source after the move, destination after the move). -/
def moveUnique {α : Type} (src : Option α) : Option α × Option α := (none, src)

/-! ## Parent/child teardown with a weak back-edge

Modelled from the spec: the scene-graph example (`FSceneNode`,
`FWeakPtrExamples::CircularReferenceExample`) relies on the engine's
reference-counted destruction, which is not in the repository.  Per spec
§3/§4.1, dropping the last strong handle on the parent destroys the parent,
and the parent's destruction drops the strong handle it held on the child;
the child's back-reference to the parent is weak, so it contributes nothing
to the parent's strong count. -/

def dropParentOwner (parent child : CBlock) : CBlock × CBlock :=
  let p := spApply parent SPOp.drop
  if p.strong = 0 then (p, spApply child SPOp.drop) else (p, child)

/-! ## Task scheduler

Modelled from the spec: the `UE::Tasks` scheduler is engine library code not
in the repository.  Per spec §3/§4.2, a task node has an identifier, a list
of prerequisite identifiers, a status `Pending → Running → Completed`, a
pending-count of not-yet-completed prerequisites, and a write-once result
slot.  A task with prerequisites is not placed on the ready queue at launch;
completing a prerequisite decrements the pending-count of each waiting
successor, and a successor enters the ready queue exactly when its
pending-count reaches zero.  Only ready tasks may start.  Scheduling order
among enabled events is left nondeterministic: theorems quantify over every
valid event sequence. -/

inductive TStatus where
  | pending
  | running
  | completed
  deriving DecidableEq, Repr

structure STask where
  tid : Nat
  prereqs : List Nat
  status : TStatus
  pendingCount : Nat
  result : Option Int
  deriving DecidableEq, Repr

structure SState where
  tasks : List STask
  ready : List Nat
  deriving DecidableEq, Repr

def lookupTask (ts : List STask) (i : Nat) : Option STask :=
  ts.find? (fun t => t.tid == i)

def isCompleted (ts : List STask) (p : Nat) : Bool :=
  match lookupTask ts p with
  | some t => t.status == TStatus.completed
  | none => false

/-- Launching a graph of tasks: every node starts `Pending` with its
pending-count equal to the number of its prerequisites. -/
def initTasks (g : List (Nat × List Nat)) : List STask :=
  g.map (fun e => ⟨e.1, e.2, TStatus.pending, e.2.length, none⟩)

/-- Initial scheduler state: tasks with no outstanding prerequisites are
immediately eligible (on the ready queue). -/
def initState (g : List (Nat × List Nat)) : SState :=
  let ts := initTasks g
  ⟨ts, (ts.filter (fun t => t.pendingCount == 0)).map (fun t => t.tid)⟩

/-- Scheduler events: a worker starts a ready task, or finishes a running
task storing its result value. -/
inductive Event where
  | start (i : Nat)
  | complete (i : Nat) (v : Int)
  deriving DecidableEq, Repr

def startOk (s : SState) (i : Nat) : Bool :=
  s.ready.contains i &&
    match lookupTask s.tasks i with
    | some t => t.status == TStatus.pending
    | none => false

def completeOk (s : SState) (i : Nat) : Bool :=
  match lookupTask s.tasks i with
  | some t => t.status == TStatus.running
  | none => false

/-- Mark task `i` as running. -/
def startMark (i : Nat) (t : STask) : STask :=
  if t.tid == i then { t with status := TStatus.running } else t

/-- Mark task `i` as completed with stored result `v`. -/
def completeMark (i : Nat) (v : Int) (t : STask) : STask :=
  if t.tid == i then { t with status := TStatus.completed, result := some v } else t

def applyStart (s : SState) (i : Nat) : SState :=
  ⟨s.tasks.map (startMark i), s.ready.filter (fun j => j != i)⟩

/-- Dependency resolution for one waiting successor when task `i`
completes: a pending successor that lists `i` as a prerequisite has its
pending-count decremented. -/
def resolveOne (i : Nat) (t : STask) : STask :=
  if t.status == TStatus.pending && t.prereqs.contains i then
    { t with pendingCount := t.pendingCount - 1 }
  else t

/-- Completing task `i` with value `v`: its status becomes `Completed` and
its result slot is written; each waiting successor's pending-count is
decremented, and successors whose pending-count thereby reaches zero enter
the ready queue. -/
def applyComplete (s : SState) (i : Nat) (v : Int) : SState :=
  let newlyReady := (s.tasks.filter (fun t =>
    t.status == TStatus.pending && t.prereqs.contains i && t.pendingCount == 1)).map
      (fun t => t.tid)
  ⟨(s.tasks.map (completeMark i v)).map (resolveOne i), s.ready ++ newlyReady⟩

def stepOk (s : SState) : Event → Bool
  | .start i => startOk s i
  | .complete i _ => completeOk s i

def applyEvent (s : SState) : Event → SState
  | .start i => applyStart s i
  | .complete i v => applyComplete s i v

def execOk (s : SState) : List Event → Bool
  | [] => true
  | e :: es => stepOk s e && execOk (applyEvent s e) es

def exec (s : SState) : List Event → SState
  | [] => s
  | e :: es => exec (applyEvent s e) es

/-- Number of prerequisites in `ps` that are not yet completed. -/
def countNC (ts : List STask) (ps : List Nat) : Nat :=
  (ps.filter (fun p => !(isCompleted ts p))).length

/-- Modelled from the spec: `Wait` on a list of tasks returns exactly when
every listed task has status Completed. -/
def waitDone (s : SState) (ids : List Nat) : Bool :=
  ids.all (fun i => isCompleted s.tasks i)

/-- Modelled from the spec: `GetResult` reads the stored result slot. -/
def getResult (s : SState) (i : Nat) : Option Int :=
  (lookupTask s.tasks i).bind (fun t => t.result)

/-- Well-formed task graph: task identifiers are unique and no task lists a
prerequisite twice. -/
def WFGraph (g : List (Nat × List Nat)) : Prop :=
  (g.map (fun e => e.1)).Nodup ∧ ∀ e ∈ g, e.2.Nodup

/-- Task identifiers and prerequisite lists are unique, inside a state. -/
def InvTasks (s : SState) : Prop :=
  (s.tasks.map (fun t => t.tid)).Nodup ∧ ∀ t ∈ s.tasks, t.prereqs.Nodup

/-- A pending task's pending-count equals its number of not-yet-completed
prerequisites. -/
def InvPending (s : SState) : Prop :=
  ∀ t ∈ s.tasks, t.status = TStatus.pending → t.pendingCount = countNC s.tasks t.prereqs

/-- Every task on the ready queue has pending-count zero. -/
def InvReady (s : SState) : Prop :=
  ∀ i ∈ s.ready, ∀ t, lookupTask s.tasks i = some t → t.pendingCount = 0

/-- A completed task has a stored result. -/
def InvResult (s : SState) : Prop :=
  ∀ t ∈ s.tasks, t.status = TStatus.completed → t.result.isSome = true

def Inv (s : SState) : Prop := InvTasks s ∧ InvPending s ∧ InvReady s ∧ InvResult s

/-- The static shape of a task list: identifiers with their prerequisite
lists; scheduler steps never change it. -/
def shape (ts : List STask) : List (Nat × List Nat) :=
  ts.map (fun t => (t.tid, t.prereqs))

/-! ## Parallel sum (embedded from the source)

`FExercise01_ParallelSum_Solution::CalculateParallelSum`
(src/Module02_TaskSystem/Exercises/Exercise01_BasicAsync_Solution.h).
Each chunk task computes a pure sum over a disjoint index range and the
partial sums are combined after all four chunk tasks complete, so the
parallel computation is value-equivalent to this sequential embedding. -/

/-- The sum computed by one chunk task over index range
`[startIdx, endIdx)` of the input array (the C++ loop
`for (i = StartIdx; i < EndIdx; ++i) ChunkSum += Numbers[i]`). -/
def chunkSum (numbers : List Int) (startIdx endIdx : Nat) : Int :=
  ((List.range (endIdx - startIdx)).map (fun k => numbers.getD (startIdx + k) 0)).foldl
    (· + ·) 0

/-- Embedded from `CalculateParallelSum`: empty input returns 0 before any
chunking; otherwise the input is divided into `NumChunks = 4` chunks of
size `Num / 4`, the last chunk absorbing the remainder, and the four chunk
sums are added together. -/
def calculateParallelSum (numbers : List Int) : Int :=
  if numbers.length = 0 then 0
  else
    let numChunks : Nat := 4
    let chunkSize : Nat := numbers.length / numChunks
    let chunkResults := (List.range numChunks).map (fun chunkIdx =>
      let startIdx := chunkIdx * chunkSize
      let endIdx := if chunkIdx = numChunks - 1 then numbers.length
                    else startIdx + chunkSize
      chunkSum numbers startIdx endIdx)
    chunkResults.foldl (· + ·) 0

/-- Embedded from `CalculateParallelSum`: number of tasks launched — none on
the empty early return, otherwise one per chunk (`NumChunks = 4`). -/
def parallelSumTasksLaunched (numbers : List Int) : Nat :=
  if numbers.length = 0 then 0 else 4

/-! ## File handle (embedded from the source)

`FFileHandle` (src/Module01_SmartPointers/Examples/05_TUniquePtr.h):
`Close` clears `bIsOpen` if it is set, the destructor calls `Close`. -/

structure FFileHandle where
  fileName : String
  bIsOpen : Bool
  deriving DecidableEq, Repr

/-- Embedded from the `FFileHandle` constructor: the file starts open. -/
def openFileHandle (name : String) : FFileHandle := ⟨name, true⟩

/-- Embedded from `FFileHandle::Close`: when the handle is open, performs
the close action (clears `bIsOpen`); otherwise does nothing.  Returns the
new state and whether the close action was performed. -/
def closeHandle (h : FFileHandle) : FFileHandle × Bool :=
  if h.bIsOpen then ({ h with bIsOpen := false }, true) else (h, false)

/-- Embedded from the `FFileHandle` destructor, whose body is a call to
`Close`. -/
def destructHandle (h : FFileHandle) : FFileHandle × Bool := closeHandle h

/-! ## Helper lemmas: ownership model -/

theorem spInv_mkShared : spInv mkShared := by
  simp [spInv, mkShared]

theorem spInv_step (s : CBlock) (op : SPOp) (hok : spOk s op = true)
    (hinv : spInv s) : spInv (spApply s op) := by
  cases op with
  | copy =>
      simp only [spOk, decide_eq_true_eq] at hok
      have : ¬ s.strong = 0 := by omega
      simp [spInv, spApply] at hinv ⊢
      simpa [this] using hinv
  | drop =>
      simp only [spOk, decide_eq_true_eq] at hok
      by_cases h1 : s.strong - 1 = 0
      · have hs1 : s.strong = 1 := by omega
        simp [spInv, spApply, h1, spInv, hs1] at hinv ⊢
        simpa [hs1] using hinv
      · have : ¬ s.strong = 0 := by omega
        simp [spInv, spApply, h1, this] at hinv ⊢
        simpa [this] using hinv
  | downgrade => simpa [spInv, spApply] using hinv
  | dropWeak => simpa [spInv, spApply] using hinv

theorem spInv_run (s : CBlock) (ops : List SPOp)
    (hrun : spRunOk s ops = true) (hinv : spInv s) : spInv (spExec s ops) := by
  induction ops generalizing s with
  | nil => simpa [spExec]
  | cons op ops ih =>
      simp only [spRunOk, Bool.and_eq_true] at hrun
      exact ih (spApply s op) hrun.2 (spInv_step s op hrun.1 hinv)

theorem spInv_reachable (ops : List SPOp) (hrun : spRunOk mkShared ops = true) :
    spInv (spExec mkShared ops) :=
  spInv_run mkShared ops hrun spInv_mkShared

theorem spExec_append (s : CBlock) (l1 l2 : List SPOp) :
    spExec s (l1 ++ l2) = spExec (spExec s l1) l2 := by
  induction l1 generalizing s with
  | nil => simp [spExec]
  | cons op l1 ih => simp [spExec, ih]

theorem spRunOk_append (s : CBlock) (l1 l2 : List SPOp) :
    spRunOk s (l1 ++ l2) = (spRunOk s l1 && spRunOk (spExec s l1) l2) := by
  induction l1 generalizing s with
  | nil => simp [spRunOk, spExec]
  | cons op l1 ih => simp [spRunOk, spExec, ih, Bool.and_assoc]

/-- A single valid step destroys the wrapped value exactly when it is the
drop of the last strong handle. -/
theorem spStep_destroy (s : CBlock) (op : SPOp) (hok : spOk s op = true) :
    (spApply s op).destroyCount =
      s.destroyCount + (if op = SPOp.drop ∧ s.strong = 1 then 1 else 0) := by
  cases op with
  | copy => simp [spApply]
  | drop =>
      simp only [spOk, decide_eq_true_eq] at hok
      by_cases h1 : s.strong = 1
      · simp [spApply, h1]
      · have : ¬ s.strong - 1 = 0 := by omega
        simp [spApply, this, h1]
  | downgrade => simp [spApply]
  | dropWeak => simp [spApply]

/-! ## Helper lemmas: task scheduler -/

@[simp] theorem startMark_tid (i : Nat) (t : STask) : (startMark i t).tid = t.tid := by
  unfold startMark; split <;> rfl

@[simp] theorem startMark_prereqs (i : Nat) (t : STask) :
    (startMark i t).prereqs = t.prereqs := by
  unfold startMark; split <;> rfl

@[simp] theorem startMark_pendingCount (i : Nat) (t : STask) :
    (startMark i t).pendingCount = t.pendingCount := by
  unfold startMark; split <;> rfl

@[simp] theorem startMark_result (i : Nat) (t : STask) :
    (startMark i t).result = t.result := by
  unfold startMark; split <;> rfl

@[simp] theorem completeMark_tid (i : Nat) (v : Int) (t : STask) :
    (completeMark i v t).tid = t.tid := by
  unfold completeMark; split <;> rfl

@[simp] theorem completeMark_prereqs (i : Nat) (v : Int) (t : STask) :
    (completeMark i v t).prereqs = t.prereqs := by
  unfold completeMark; split <;> rfl

@[simp] theorem completeMark_pendingCount (i : Nat) (v : Int) (t : STask) :
    (completeMark i v t).pendingCount = t.pendingCount := by
  unfold completeMark; split <;> rfl

@[simp] theorem resolveOne_tid (i : Nat) (t : STask) : (resolveOne i t).tid = t.tid := by
  unfold resolveOne; split <;> rfl

@[simp] theorem resolveOne_prereqs (i : Nat) (t : STask) :
    (resolveOne i t).prereqs = t.prereqs := by
  unfold resolveOne; split <;> rfl

@[simp] theorem resolveOne_status (i : Nat) (t : STask) :
    (resolveOne i t).status = t.status := by
  unfold resolveOne; split <;> rfl

@[simp] theorem resolveOne_result (i : Nat) (t : STask) :
    (resolveOne i t).result = t.result := by
  unfold resolveOne; split <;> rfl

theorem lookupTask_map (ts : List STask) (f : STask → STask)
    (hf : ∀ t, (f t).tid = t.tid) (i : Nat) :
    lookupTask (ts.map f) i = (lookupTask ts i).map f := by
  unfold lookupTask
  rw [List.find?_map]
  have hp : ((fun t : STask => t.tid == i) ∘ f) = (fun t : STask => t.tid == i) := by
    funext t
    simp [Function.comp, hf]
  rw [hp]

theorem lookupTask_some (ts : List STask) (i : Nat) (t : STask)
    (h : lookupTask ts i = some t) : t ∈ ts ∧ t.tid = i := by
  refine ⟨List.mem_of_find?_eq_some h, ?_⟩
  have := List.find?_some h
  simpa using this

theorem lookupTask_of_mem (ts : List STask) (t : STask)
    (hnd : (ts.map (fun u => u.tid)).Nodup) (hm : t ∈ ts) :
    lookupTask ts t.tid = some t := by
  induction ts with
  | nil => cases hm
  | cons a ts ih =>
      rw [List.map_cons, List.nodup_cons] at hnd
      rcases List.mem_cons.mp hm with rfl | hm'
      · simp [lookupTask]
      · have hne : a.tid ≠ t.tid := by
          intro he
          exact hnd.1 (by rw [he]; exact List.mem_map_of_mem (fun u => u.tid) hm')
        unfold lookupTask
        rw [List.find?_cons_of_neg _ (by simp [hne])]
        exact ih hnd.2 hm'

theorem exec_append (s : SState) (l1 l2 : List Event) :
    exec s (l1 ++ l2) = exec (exec s l1) l2 := by
  induction l1 generalizing s with
  | nil => simp [exec]
  | cons e l1 ih => simp [exec, ih]

theorem execOk_append (s : SState) (l1 l2 : List Event) :
    execOk s (l1 ++ l2) = (execOk s l1 && execOk (exec s l1) l2) := by
  induction l1 generalizing s with
  | nil => simp [execOk, exec]
  | cons e l1 ih => simp [execOk, exec, ih, Bool.and_assoc]

theorem shape_applyEvent (s : SState) (e : Event) :
    shape (applyEvent s e).tasks = shape s.tasks := by
  cases e with
  | start i =>
      simp [shape, applyEvent, applyStart, List.map_map, Function.comp]
  | complete i v =>
      simp [shape, applyEvent, applyComplete, List.map_map, Function.comp]

theorem shape_exec (s : SState) (l : List Event) :
    shape (exec s l).tasks = shape s.tasks := by
  induction l generalizing s with
  | nil => rfl
  | cons e l ih =>
      rw [exec, ih]
      exact shape_applyEvent s e

theorem shape_init (g : List (Nat × List Nat)) : shape (initState g).tasks = g := by
  show shape (initTasks g) = g
  unfold shape initTasks
  rw [List.map_map]
  have : ((fun t : STask => (t.tid, t.prereqs)) ∘
      (fun e : Nat × List Nat => (⟨e.1, e.2, TStatus.pending, e.2.length, none⟩ : STask)))
      = (fun e : Nat × List Nat => e) := by
    funext e
    rfl
  rw [this, List.map_id']

theorem tids_exec (s : SState) (l : List Event) :
    (exec s l).tasks.map (fun t => t.tid) = s.tasks.map (fun t => t.tid) := by
  have h := congrArg (List.map Prod.fst) (shape_exec s l)
  simpa [shape, List.map_map, Function.comp] using h

theorem init_not_completed (g : List (Nat × List Nat)) (p : Nat) :
    isCompleted (initState g).tasks p = false := by
  unfold isCompleted
  cases hlk : lookupTask (initState g).tasks p with
  | none => rfl
  | some t =>
      have hm := (lookupTask_some _ _ _ hlk).1
      have hm' : t ∈ initTasks g := hm
      unfold initTasks at hm'
      obtain ⟨e, he, rfl⟩ := List.mem_map.mp hm'
      rfl

theorem isCompleted_applyStart (s : SState) (i : Nat) (hok : startOk s i = true)
    (p : Nat) : isCompleted (applyStart s i).tasks p = isCompleted s.tasks p := by
  unfold isCompleted
  have hmap : lookupTask (applyStart s i).tasks p
      = (lookupTask s.tasks p).map (startMark i) :=
    lookupTask_map s.tasks (startMark i) (by simp) p
  rw [hmap]
  cases hlk : lookupTask s.tasks p with
  | none => rfl
  | some t =>
      simp only [Option.map_some']
      by_cases hti : (t.tid == i) = true
      · have htid : t.tid = p := (lookupTask_some _ _ _ hlk).2
        have hpi : p = i := by
          rw [← htid]
          simpa using hti
        subst hpi
        simp only [startOk, Bool.and_eq_true] at hok
        rw [hlk] at hok
        have hst : t.status = TStatus.pending := by simpa using hok.2
        simp [startMark, hti, hst]
      · simp [startMark, hti]

theorem isCompleted_applyComplete_ne (s : SState) (i : Nat) (v : Int) (p : Nat)
    (hne : p ≠ i) :
    isCompleted (applyComplete s i v).tasks p = isCompleted s.tasks p := by
  unfold isCompleted
  have htasks : (applyComplete s i v).tasks
      = (s.tasks.map (completeMark i v)).map (resolveOne i) := rfl
  rw [htasks, lookupTask_map _ (resolveOne i) (by simp) p,
    lookupTask_map _ (completeMark i v) (by simp) p]
  cases hlk : lookupTask s.tasks p with
  | none => rfl
  | some t =>
      have htid : t.tid = p := (lookupTask_some _ _ _ hlk).2
      have hti : (t.tid == i) = false := by simp [htid, hne]
      simp [completeMark, hti]

theorem isCompleted_applyComplete_self (s : SState) (i : Nat) (v : Int)
    (hok : completeOk s i = true) :
    isCompleted (applyComplete s i v).tasks i = true := by
  unfold completeOk at hok
  cases hlk : lookupTask s.tasks i with
  | none => rw [hlk] at hok; cases hok
  | some t =>
      have htasks : (applyComplete s i v).tasks
          = (s.tasks.map (completeMark i v)).map (resolveOne i) := rfl
      unfold isCompleted
      rw [htasks, lookupTask_map _ (resolveOne i) (by simp) i,
        lookupTask_map _ (completeMark i v) (by simp) i, hlk]
      have hti : (t.tid == i) = true := by simp [(lookupTask_some _ _ _ hlk).2]
      simp [completeMark, hti]

theorem isCompleted_of_completeOk (s : SState) (i : Nat)
    (hok : completeOk s i = true) : isCompleted s.tasks i = false := by
  unfold completeOk at hok
  unfold isCompleted
  cases hlk : lookupTask s.tasks i with
  | none => rfl
  | some t =>
      rw [hlk] at hok
      have hst : t.status = TStatus.running := by simpa using hok
      simp [hst]

/-- A task completed after a run either was completed at the outset or has
its completion event in the run. -/
theorem isCompleted_exec_mem (s : SState) (l : List Event) (p : Nat)
    (hrun : execOk s l = true) (hc : isCompleted (exec s l).tasks p = true) :
    isCompleted s.tasks p = true ∨ ∃ v, Event.complete p v ∈ l := by
  induction l generalizing s with
  | nil =>
      left
      simpa [exec] using hc
  | cons e l ih =>
      simp only [execOk, Bool.and_eq_true] at hrun
      rw [exec] at hc
      rcases ih (applyEvent s e) hrun.2 hc with h | h
      · cases e with
        | start i =>
            left
            simp only [applyEvent] at h
            rwa [isCompleted_applyStart s i hrun.1 p] at h
        | complete i v =>
            by_cases hpi : p = i
            · right
              exact ⟨v, by simp [hpi]⟩
            · left
              simp only [applyEvent] at h
              rwa [isCompleted_applyComplete_ne s i v p hpi] at h
      · right
        obtain ⟨v, hv⟩ := h
        exact ⟨v, List.mem_cons_of_mem _ hv⟩

/-- Flipping one predicate value from true to false at a single element of
a duplicate-free list lowers the filtered length by its multiplicity. -/
theorem filter_length_flip (l : List Nat) (f g : Nat → Bool) (a : Nat)
    (hl : l.Nodup) (hfa : f a = true) (hga : g a = false)
    (hfg : ∀ p, p ≠ a → g p = f p) :
    (l.filter g).length + (if a ∈ l then 1 else 0) = (l.filter f).length := by
  induction l with
  | nil => simp
  | cons b l ih =>
      rw [List.nodup_cons] at hl
      by_cases hba : b = a
      · subst hba
        have hgf : ∀ p ∈ l, g p = f p := by
          intro p hp
          exact hfg p (fun he => hl.1 (he ▸ hp))
        rw [List.filter_cons_of_neg (by simp [hga]),
          List.filter_cons_of_pos (by simp [hfa]),
          List.filter_congr hgf]
        simp
      · have hgb : g b = f b := hfg b hba
        have hab : ¬ a = b := fun h => hba h.symm
        have hmem : (if a ∈ b :: l then 1 else 0) = (if a ∈ l then 1 else 0) := by
          simp [List.mem_cons, hab]
        cases hfb : f b with
        | true =>
            rw [List.filter_cons_of_pos (by simp [hgb, hfb]),
              List.filter_cons_of_pos (by simp [hfb])]
            simp only [List.length_cons, hmem]
            have := ih hl.2
            omega
        | false =>
            rw [List.filter_cons_of_neg (by simp [hgb, hfb]),
              List.filter_cons_of_neg (by simp [hfb])]
            rw [hmem]
            exact ih hl.2

theorem countNC_applyStart (s : SState) (i : Nat) (hok : startOk s i = true)
    (ps : List Nat) : countNC (applyStart s i).tasks ps = countNC s.tasks ps := by
  unfold countNC
  congr 1
  apply List.filter_congr
  intro p _
  rw [isCompleted_applyStart s i hok p]

theorem countNC_applyComplete (s : SState) (i : Nat) (v : Int) (ps : List Nat)
    (hnd : ps.Nodup) (hok : completeOk s i = true) :
    countNC (applyComplete s i v).tasks ps + (if i ∈ ps then 1 else 0)
      = countNC s.tasks ps := by
  unfold countNC
  apply filter_length_flip ps _ _ i hnd
  · rw [isCompleted_of_completeOk s i hok]
    rfl
  · rw [isCompleted_applyComplete_self s i v hok]
    rfl
  · intro p hp
    rw [isCompleted_applyComplete_ne s i v p hp]

theorem inv_init (g : List (Nat × List Nat)) (hwf : WFGraph g) : Inv (initState g) := by
  obtain ⟨hnd, hpnd⟩ := hwf
  have htids : (initState g).tasks.map (fun t => t.tid) = g.map (fun e => e.1) := by
    show (initTasks g).map (fun t => t.tid) = g.map (fun e => e.1)
    unfold initTasks
    rw [List.map_map]
    rfl
  refine ⟨⟨?_, ?_⟩, ?_, ?_, ?_⟩
  · rw [htids]
    exact hnd
  · intro t ht
    have ht' : t ∈ initTasks g := ht
    unfold initTasks at ht'
    obtain ⟨e, he, rfl⟩ := List.mem_map.mp ht'
    exact hpnd e he
  · intro t ht _
    have ht' : t ∈ initTasks g := ht
    unfold initTasks at ht'
    obtain ⟨e, he, rfl⟩ := List.mem_map.mp ht'
    simp [countNC, init_not_completed g]
  · intro j hj t hlk
    have hj' : j ∈ ((initTasks g).filter
        (fun t => t.pendingCount == 0)).map (fun t => t.tid) := hj
    obtain ⟨u, hu, rfl⟩ := List.mem_map.mp hj'
    have hu' := List.mem_filter.mp hu
    have hlk2 : lookupTask (initState g).tasks u.tid = some u := by
      apply lookupTask_of_mem
      · rw [htids]
        exact hnd
      · exact hu'.1
    rw [hlk2] at hlk
    injection hlk with h
    subst h
    simpa using hu'.2
  · intro t ht hc
    have ht' : t ∈ initTasks g := ht
    unfold initTasks at ht'
    obtain ⟨e, he, rfl⟩ := List.mem_map.mp ht'
    exact TStatus.noConfusion hc

theorem invTasks_applyEvent (s : SState) (e : Event) (h : InvTasks s) :
    InvTasks (applyEvent s e) := by
  obtain ⟨hnd, hpnd⟩ := h
  constructor
  · have hsh := congrArg (List.map Prod.fst) (shape_applyEvent s e)
    have h2 : (applyEvent s e).tasks.map (fun t => t.tid)
        = s.tasks.map (fun t => t.tid) := by
      simpa [shape, List.map_map, Function.comp] using hsh
    rw [h2]
    exact hnd
  · intro t ht
    cases e with
    | start i =>
        have ht' : t ∈ s.tasks.map (startMark i) := ht
        obtain ⟨u, hu, rfl⟩ := List.mem_map.mp ht'
        simpa using hpnd u hu
    | complete i v =>
        have ht' : t ∈ (s.tasks.map (completeMark i v)).map (resolveOne i) := ht
        obtain ⟨u1, hu1, rfl⟩ := List.mem_map.mp ht'
        obtain ⟨u, hu, rfl⟩ := List.mem_map.mp hu1
        simpa using hpnd u hu

theorem invPending_applyEvent (s : SState) (e : Event) (hok : stepOk s e = true)
    (hI : Inv s) : InvPending (applyEvent s e) := by
  obtain ⟨⟨hnd, hpnd⟩, hpend, hready, hres⟩ := hI
  cases e with
  | start i =>
      intro t ht hp
      have ht' : t ∈ s.tasks.map (startMark i) := ht
      obtain ⟨u, hu, rfl⟩ := List.mem_map.mp ht'
      by_cases hti : (u.tid == i) = true
      · have hrn : (startMark i u).status = TStatus.running := by
          simp [startMark, hti]
        rw [hp] at hrn
        exact absurd hrn (by decide)
      · have hmark : startMark i u = u := by simp [startMark, hti]
        rw [hmark] at hp ⊢
        show u.pendingCount = countNC (applyStart s i).tasks u.prereqs
        rw [countNC_applyStart s i hok u.prereqs]
        exact hpend u hu hp
  | complete i v =>
      intro t ht hp
      have hcok : completeOk s i = true := hok
      have ht' : t ∈ (s.tasks.map (completeMark i v)).map (resolveOne i) := ht
      obtain ⟨u1, hu1, rfl⟩ := List.mem_map.mp ht'
      obtain ⟨u, hu, rfl⟩ := List.mem_map.mp hu1
      rw [resolveOne_status] at hp
      by_cases hti : (u.tid == i) = true
      · have hcm : (completeMark i v u).status = TStatus.completed := by
          simp [completeMark, hti]
        rw [hp] at hcm
        exact absurd hcm (by decide)
      · have hmark : completeMark i v u = u := by simp [completeMark, hti]
        rw [hmark] at hp ⊢
        show (resolveOne i u).pendingCount
            = countNC (applyComplete s i v).tasks (resolveOne i u).prereqs
        rw [resolveOne_prereqs]
        have hold := hpend u hu hp
        have hcnt := countNC_applyComplete s i v u.prereqs (hpnd u hu) hcok
        by_cases hmem : i ∈ u.prereqs
        · have hres1 : (resolveOne i u).pendingCount = u.pendingCount - 1 := by
            simp [resolveOne, hp, hmem]
          have hfm : i ∈ u.prereqs.filter (fun p => !(isCompleted s.tasks p)) := by
            rw [List.mem_filter]
            refine ⟨hmem, ?_⟩
            rw [isCompleted_of_completeOk s i hcok]
            rfl
          have hge : 0 < countNC s.tasks u.prereqs := by
            unfold countNC
            exact List.length_pos.mpr (List.ne_nil_of_mem hfm)
          rw [if_pos hmem] at hcnt
          rw [hres1, hold]
          omega
        · have hres1 : (resolveOne i u).pendingCount = u.pendingCount := by
            simp [resolveOne, hmem]
          rw [if_neg hmem] at hcnt
          rw [hres1, hold]
          omega

theorem invReady_applyEvent (s : SState) (e : Event) (hok : stepOk s e = true)
    (hI : Inv s) : InvReady (applyEvent s e) := by
  obtain ⟨⟨hnd, hpnd⟩, hpend, hready, hres⟩ := hI
  cases e with
  | start i =>
      intro j hj t hlk
      simp only [applyEvent] at hj hlk
      have hj' : j ∈ s.ready.filter (fun x => x != i) := hj
      have hjm := (List.mem_filter.mp hj').1
      rw [show (applyStart s i).tasks = s.tasks.map (startMark i) from rfl,
        lookupTask_map s.tasks (startMark i) (by simp) j] at hlk
      cases hlk0 : lookupTask s.tasks j with
      | none =>
          rw [hlk0] at hlk
          cases hlk
      | some u =>
          rw [hlk0] at hlk
          simp only [Option.map_some'] at hlk
          injection hlk with h
          subst h
          rw [startMark_pendingCount]
          exact hready j hjm u hlk0
  | complete i v =>
      intro j hj t hlk
      simp only [applyEvent] at hj hlk
      have hcok : completeOk s i = true := hok
      rw [show (applyComplete s i v).tasks
          = (s.tasks.map (completeMark i v)).map (resolveOne i) from rfl,
        lookupTask_map _ (resolveOne i) (by simp) j,
        lookupTask_map _ (completeMark i v) (by simp) j] at hlk
      have hj' : j ∈ s.ready ++ ((s.tasks.filter (fun u =>
          u.status == TStatus.pending && u.prereqs.contains i
            && u.pendingCount == 1)).map (fun u => u.tid)) := hj
      rcases List.mem_append.mp hj' with hjold | hjnew
      · cases hlk0 : lookupTask s.tasks j with
        | none =>
            rw [hlk0] at hlk
            cases hlk
        | some u =>
            rw [hlk0] at hlk
            simp only [Option.map_some'] at hlk
            injection hlk with h
            subst h
            have h0 := hready j hjold u hlk0
            unfold resolveOne
            split
            · simp [h0]
            · simp [h0]
      · obtain ⟨u, hu, rfl⟩ := List.mem_map.mp hjnew
        have hu' := List.mem_filter.mp hu
        have hcond := hu'.2
        simp only [Bool.and_eq_true] at hcond
        have hstat : u.status = TStatus.pending := by simpa using hcond.1.1
        have hcont : u.prereqs.contains i = true := hcond.1.2
        have hpc : u.pendingCount = 1 := by simpa using hcond.2
        have hlku : lookupTask s.tasks u.tid = some u :=
          lookupTask_of_mem s.tasks u hnd hu'.1
        have hune : (u.tid == i) = false := by
          cases hcc : (u.tid == i) with
          | false => rfl
          | true =>
              exfalso
              have hti : u.tid = i := by simpa using hcc
              unfold completeOk at hcok
              rw [hti] at hlku
              rw [hlku] at hcok
              have hrn : u.status = TStatus.running := by simpa using hcok
              rw [hstat] at hrn
              exact absurd hrn (by decide)
        rw [hlku] at hlk
        simp only [Option.map_some'] at hlk
        injection hlk with h
        subst h
        have hmark : completeMark i v u = u := by simp [completeMark, hune]
        rw [hmark]
        unfold resolveOne
        split
        · simp [hpc]
        · next hcnd =>
            exact absurd (by rw [Bool.and_eq_true]; exact ⟨by simp [hstat], hcont⟩) hcnd

theorem invResult_applyEvent (s : SState) (e : Event) (hI : Inv s) :
    InvResult (applyEvent s e) := by
  obtain ⟨⟨hnd, hpnd⟩, hpend, hready, hres⟩ := hI
  cases e with
  | start i =>
      intro t ht hc
      have ht' : t ∈ s.tasks.map (startMark i) := ht
      obtain ⟨u, hu, rfl⟩ := List.mem_map.mp ht'
      rw [startMark_result]
      by_cases hti : (u.tid == i) = true
      · have hrn : (startMark i u).status = TStatus.running := by
          simp [startMark, hti]
        rw [hc] at hrn
        exact absurd hrn (by decide)
      · have hmark : startMark i u = u := by simp [startMark, hti]
        rw [hmark] at hc
        exact hres u hu hc
  | complete i v =>
      intro t ht hc
      have ht' : t ∈ (s.tasks.map (completeMark i v)).map (resolveOne i) := ht
      obtain ⟨u1, hu1, rfl⟩ := List.mem_map.mp ht'
      obtain ⟨u, hu, rfl⟩ := List.mem_map.mp hu1
      rw [resolveOne_result]
      rw [resolveOne_status] at hc
      by_cases hti : (u.tid == i) = true
      · have hcm : (completeMark i v u).result = some v := by
          simp [completeMark, hti]
        rw [hcm]
        rfl
      · have hmark : completeMark i v u = u := by simp [completeMark, hti]
        rw [hmark] at hc ⊢
        exact hres u hu hc

theorem inv_applyEvent (s : SState) (e : Event) (hok : stepOk s e = true)
    (hI : Inv s) : Inv (applyEvent s e) :=
  ⟨invTasks_applyEvent s e hI.1, invPending_applyEvent s e hok hI,
   invReady_applyEvent s e hok hI, invResult_applyEvent s e hI⟩

theorem inv_exec (s : SState) (l : List Event) (hrun : execOk s l = true)
    (hI : Inv s) : Inv (exec s l) := by
  induction l generalizing s with
  | nil => simpa [exec] using hI
  | cons e l ih =>
      simp only [execOk, Bool.and_eq_true] at hrun
      rw [exec]
      exact ih (applyEvent s e) hrun.2 (inv_applyEvent s e hrun.1 hI)

/-! ## Claim theorems: ownership model -/

/-- C2: for every valid sequence of copy and drop operations on the shared
handles aliasing one allocation, the wrapped value is destroyed exactly
once, precisely at the operation that makes the strong count reach zero —
never while a strong handle remains (destroy count stays 0 whenever the
strong count is positive) and never skipped once the last strong handle is
dropped (destroy count is 1 exactly when the strong count is zero), and a
step destroys the value exactly when it is a drop performed at strong
count 1. -/
theorem shared_value_destroyed_exactly_once (ops : List SPOp)
    (hops : ops.all (fun o => o == SPOp.copy || o == SPOp.drop) = true)
    (hrun : spRunOk mkShared ops = true) :
    (spExec mkShared ops).destroyCount
        = (if (spExec mkShared ops).strong = 0 then 1 else 0)
    ∧ ∀ l1 op l2, ops = l1 ++ op :: l2 →
        (spExec mkShared (l1 ++ [op])).destroyCount
          = (spExec mkShared l1).destroyCount
            + (if op = SPOp.drop ∧ (spExec mkShared l1).strong = 1 then 1 else 0) := by
  refine ⟨spInv_reachable ops hrun, ?_⟩
  intro l1 op l2 hsplit
  subst hsplit
  rw [spRunOk_append, Bool.and_eq_true, spRunOk, Bool.and_eq_true] at hrun
  have hok : spOk (spExec mkShared l1) op = true := hrun.2.1
  rw [spExec_append]
  simpa [spExec] using spStep_destroy (spExec mkShared l1) op hok

/-- Witness for C2 on the concrete valid sequence copy, drop, drop. -/
theorem shared_value_destroyed_exactly_once_witness :
    (spExec mkShared [SPOp.copy, SPOp.drop, SPOp.drop]).destroyCount
        = (if (spExec mkShared [SPOp.copy, SPOp.drop, SPOp.drop]).strong = 0 then 1 else 0)
    ∧ ∀ l1 op l2, [SPOp.copy, SPOp.drop, SPOp.drop] = l1 ++ op :: l2 →
        (spExec mkShared (l1 ++ [op])).destroyCount
          = (spExec mkShared l1).destroyCount
            + (if op = SPOp.drop ∧ (spExec mkShared l1).strong = 1 then 1 else 0) :=
  shared_value_destroyed_exactly_once [SPOp.copy, SPOp.drop, SPOp.drop]
    (by decide) (by decide)

/-- C3: in every reachable state of an allocation, `Pin` returns a
non-empty shared handle iff the strong count is positive at the instant of
the check; when the last strong owner has been dropped (strong count zero)
`Pin` returns the empty result, and whenever it succeeds it returns a fresh
strong handle (strong count incremented) on a value that was never
destroyed, never a stale handle. -/
theorem pin_empty_iff_no_strong_owner (ops : List SPOp)
    (hrun : spRunOk mkShared ops = true) :
    ((pin (spExec mkShared ops)).isSome = true ↔ 0 < (spExec mkShared ops).strong)
    ∧ ((spExec mkShared ops).strong = 0 → pin (spExec mkShared ops) = none)
    ∧ ∀ s', pin (spExec mkShared ops) = some s' →
        s'.strong = (spExec mkShared ops).strong + 1 ∧ s'.destroyCount = 0 := by
  have hinv := spInv_reachable ops hrun
  set s := spExec mkShared ops with hs
  refine ⟨?_, ?_, ?_⟩
  · by_cases h : 0 < s.strong <;> simp [pin, h]
  · intro h
    simp [pin, h]
  · intro s' hpin
    by_cases h : 0 < s.strong
    · simp only [pin, if_pos h, Option.some.injEq] at hpin
      have hd : s.destroyCount = 0 := by
        have : ¬ s.strong = 0 := by omega
        simpa [spInv, this] using hinv
      constructor
      · rw [← hpin]
      · rw [← hpin]
        exact hd
    · simp [pin, if_neg h] at hpin

/-- Witness for C3 on the concrete valid sequence with the single drop of
the last strong owner. -/
theorem pin_empty_iff_no_strong_owner_witness :
    ((pin (spExec mkShared [SPOp.downgrade, SPOp.drop])).isSome = true
        ↔ 0 < (spExec mkShared [SPOp.downgrade, SPOp.drop]).strong)
    ∧ ((spExec mkShared [SPOp.downgrade, SPOp.drop]).strong = 0 →
        pin (spExec mkShared [SPOp.downgrade, SPOp.drop]) = none)
    ∧ ∀ s', pin (spExec mkShared [SPOp.downgrade, SPOp.drop]) = some s' →
        s'.strong = (spExec mkShared [SPOp.downgrade, SPOp.drop]).strong + 1
          ∧ s'.destroyCount = 0 :=
  pin_empty_iff_no_strong_owner [SPOp.downgrade, SPOp.drop] (by decide)

/-- C4: in a parent/child structure where the parent holds the only strong
reference to the child and the child holds only a weak back-reference,
dropping the sole external strong owner of the parent destroys the parent,
and the ensuing drop of the parent's strong reference to the child destroys
the child as well: both values end with strong count zero and are each
destroyed exactly once. -/
theorem weak_backedge_destroys_both (parent child : CBlock)
    (hp : parent.strong = 1) (hc : child.strong = 1)
    (hdp : parent.destroyCount = 0) (hdc : child.destroyCount = 0) :
    (dropParentOwner parent child).1.strong = 0
    ∧ (dropParentOwner parent child).2.strong = 0
    ∧ (dropParentOwner parent child).1.destroyCount = 1
    ∧ (dropParentOwner parent child).2.destroyCount = 1 := by
  simp [dropParentOwner, spApply, hp, hc, hdp, hdc]

/-- Witness for C4 on the concrete scene of `CircularReferenceExample`:
one external strong handle on the parent, one strong handle on the child
held by the parent. -/
theorem weak_backedge_destroys_both_witness :
    (dropParentOwner mkShared ⟨1, 1, 0⟩).1.strong = 0
    ∧ (dropParentOwner mkShared ⟨1, 1, 0⟩).2.strong = 0
    ∧ (dropParentOwner mkShared ⟨1, 1, 0⟩).1.destroyCount = 1
    ∧ (dropParentOwner mkShared ⟨1, 1, 0⟩).2.destroyCount = 1 :=
  weak_backedge_destroys_both mkShared ⟨1, 1, 0⟩ rfl rfl rfl rfl

/-- C6: moving a non-empty exclusive handle transfers ownership of exactly
the owned value to the destination and leaves the source empty; and for
every source handle, the move is a total operation (it never fails) that
nulls the source and makes the destination own whatever the source owned. -/
theorem unique_move_transfers_ownership {α : Type} (src : Option α) (v : α)
    (h : src = some v) :
    moveUnique src = (none, some v)
    ∧ ∀ s : Option α, (moveUnique s).1 = none ∧ (moveUnique s).2 = s := by
  subst h
  exact ⟨rfl, fun s => ⟨rfl, rfl⟩⟩

/-- Witness for C6 on a concrete freshly constructed exclusive handle. -/
theorem unique_move_transfers_ownership_witness :
    moveUnique (mkUnique 7) = (none, some 7)
    ∧ ∀ s : Option Nat, (moveUnique s).1 = none ∧ (moveUnique s).2 = s :=
  unique_move_transfers_ownership (mkUnique 7) 7 rfl

/-- C8: `Construct-shared` yields strong count 1 and weak count 0; copying
a shared handle always increments the strong count by exactly 1 (no failure
mode); and after k copies of a freshly constructed handle the whole
sequence is valid and the strong count is k + 1. -/
theorem copy_shared_increments_strong :
    mkShared.strong = 1 ∧ mkShared.weak = 0
    ∧ (∀ s : CBlock, (spApply s SPOp.copy).strong = s.strong + 1)
    ∧ ∀ k : Nat, spRunOk mkShared (List.replicate k SPOp.copy) = true
        ∧ (spExec mkShared (List.replicate k SPOp.copy)).strong = k + 1 := by
  have key : ∀ (k : Nat) (s : CBlock), 0 < s.strong →
      spRunOk s (List.replicate k SPOp.copy) = true
        ∧ (spExec s (List.replicate k SPOp.copy)).strong = s.strong + k := by
    intro k
    induction k with
    | zero => intro s hs; simp [spRunOk, spExec]
    | succ k ih =>
        intro s hs
        have hstep : (spApply s SPOp.copy).strong = s.strong + 1 := by simp [spApply]
        have h' := ih (spApply s SPOp.copy) (by omega)
        refine ⟨?_, ?_⟩
        · simp only [List.replicate_succ, spRunOk, Bool.and_eq_true]
          exact ⟨by simpa [spOk] using hs, h'.1⟩
        · simp only [List.replicate_succ, spExec]
          rw [h'.2, hstep]
          omega
  refine ⟨rfl, rfl, fun s => by simp [spApply], fun k => ?_⟩
  have h := key k mkShared (by simp [mkShared])
  exact ⟨h.1, by rw [h.2]; simp [mkShared]; omega⟩

/-! ## Claim theorems: code embedded from the source -/

/-- C5: summing 1..100 by splitting into 4 equal chunks, summing each chunk
in its own task, and adding the four partial sums once all four are
complete, yields exactly 5050. -/
theorem parallel_sum_1_to_100 :
    calculateParallelSum ((List.range 100).map (fun i => (i : Int) + 1)) = 5050 := by
  decide

/-- C9: `CalculateParallelSum` on an empty array returns 0 via the early
return, before the chunk-size division, and launches no tasks. -/
theorem parallel_sum_empty_input :
    calculateParallelSum [] = 0 ∧ parallelSumTasksLaunched [] = 0 := by
  decide

/-- C10: `FFileHandle::Close` is idempotent — a second close (equally the
destructor's implicit close after an explicit close) leaves the handle
unchanged and reports no action, and across the two calls the close action
is performed at most once. -/
theorem file_close_idempotent (h : FFileHandle) :
    (closeHandle (closeHandle h).1).1 = (closeHandle h).1
    ∧ (closeHandle (closeHandle h).1).2 = false
    ∧ destructHandle (closeHandle h).1 = closeHandle (closeHandle h).1
    ∧ (closeHandle h).2.toNat + (closeHandle (closeHandle h).1).2.toNat ≤ 1 := by
  obtain ⟨name, isOpen⟩ := h
  cases isOpen <;> simp [closeHandle, destructHandle]

/-! ## Claim theorems: task scheduler -/

theorem fst_nodup_unique (l : List (Nat × List Nat))
    (hnd : (l.map (fun e => e.1)).Nodup) (a : Nat) (b c : List Nat)
    (h1 : (a, b) ∈ l) (h2 : (a, c) ∈ l) : b = c := by
  induction l with
  | nil => cases h1
  | cons x l ih =>
      rw [List.map_cons, List.nodup_cons] at hnd
      rcases List.mem_cons.mp h1 with h1' | h1'
      · rcases List.mem_cons.mp h2 with h2' | h2'
        · rw [← h1'] at h2'
          injection h2' with _ hcb
          exact hcb.symm
        · exfalso
          apply hnd.1
          rw [← h1']
          show a ∈ l.map (fun e => e.1)
          exact List.mem_map_of_mem (fun e => e.1) h2'
      · rcases List.mem_cons.mp h2 with h2' | h2'
        · exfalso
          apply hnd.1
          rw [← h2']
          show a ∈ l.map (fun e => e.1)
          exact List.mem_map_of_mem (fun e => e.1) h1'
        · exact ih hnd.2 h1' h2'

/-- C1: in every valid scheduler run of a well-formed task graph, whenever
a task with a prerequisite list starts, each of its prerequisites has
already completed — the start event is preceded in the run by a completion
event for every prerequisite, uniformly over all interleavings (hence
regardless of the order in which the prerequisites complete; fan-in
`[P1, P2, P3]` and the Bottom task of a diamond graph are instances). -/
theorem task_starts_only_after_prereqs_completed
    (g : List (Nat × List Nat)) (es l1 l2 : List Event) (i p : Nat) (ps : List Nat)
    (hwf : WFGraph g)
    (hrun : execOk (initState g) es = true)
    (hsplit : es = l1 ++ Event.start i :: l2)
    (hg : (i, ps) ∈ g) (hp : p ∈ ps) :
    ∃ v, Event.complete p v ∈ l1 := by
  subst hsplit
  rw [execOk_append, Bool.and_eq_true, execOk, Bool.and_eq_true] at hrun
  obtain ⟨hrun1, hok, _⟩ := hrun
  have hI := inv_exec (initState g) l1 hrun1 (inv_init g hwf)
  obtain ⟨⟨hnd, hpnd⟩, hpend, hready, hres⟩ := hI
  have hok' : startOk (exec (initState g) l1) i = true := hok
  simp only [startOk, Bool.and_eq_true] at hok'
  obtain ⟨hrdy, hmatch⟩ := hok'
  cases hlk : lookupTask (exec (initState g) l1).tasks i with
  | none =>
      rw [hlk] at hmatch
      cases hmatch
  | some t =>
      rw [hlk] at hmatch
      have hstat : t.status = TStatus.pending := by simpa using hmatch
      have hrdy' : i ∈ (exec (initState g) l1).ready := by
        simpa [List.contains] using hrdy
      have hpc : t.pendingCount = 0 := hready i hrdy' t hlk
      have hmem : t ∈ (exec (initState g) l1).tasks := (lookupTask_some _ _ _ hlk).1
      have hcnt : countNC (exec (initState g) l1).tasks t.prereqs = 0 :=
        (hpend t hmem hstat).symm.trans hpc
      have hshape : shape (exec (initState g) l1).tasks = g := by
        rw [shape_exec]
        exact shape_init g
      have htp : (t.tid, t.prereqs) ∈ g := by
        rw [← hshape]
        exact List.mem_map_of_mem _ hmem
      have htid : t.tid = i := (lookupTask_some _ _ _ hlk).2
      have hps : t.prereqs = ps := by
        apply fst_nodup_unique g hwf.1 i t.prereqs ps
        · rw [← htid]
          exact htp
        · exact hg
      have hcomp : isCompleted (exec (initState g) l1).tasks p = true := by
        unfold countNC at hcnt
        have hfe := List.length_eq_zero.mp hcnt
        have hpmem : p ∈ t.prereqs := by
          rw [hps]
          exact hp
        by_contra hcc
        rw [Bool.not_eq_true] at hcc
        have hpf : p ∈ t.prereqs.filter
            (fun q => !(isCompleted (exec (initState g) l1).tasks q)) := by
          rw [List.mem_filter]
          exact ⟨hpmem, by rw [hcc]; rfl⟩
        rw [hfe] at hpf
        cases hpf
      rcases isCompleted_exec_mem (initState g) l1 p hrun1 hcomp with h | h
      · rw [init_not_completed g p] at h
        cases h
      · exact h

/-- Witness for C1 on the diamond graph Top(0) → Left(1), Right(2) →
Bottom(3), on a run where Right completes before Left: the start of Bottom
is preceded by the completion of Left. -/
theorem task_starts_only_after_prereqs_completed_witness :
    ∃ v, Event.complete 1 v ∈ [Event.start 0, Event.complete 0 100,
      Event.start 1, Event.start 2, Event.complete 2 120, Event.complete 1 110] :=
  task_starts_only_after_prereqs_completed
    [(0, []), (1, [0]), (2, [0]), (3, [1, 2])]
    ([Event.start 0, Event.complete 0 100, Event.start 1, Event.start 2,
      Event.complete 2 120, Event.complete 1 110]
        ++ Event.start 3 :: [Event.complete 3 230])
    [Event.start 0, Event.complete 0 100, Event.start 1, Event.start 2,
      Event.complete 2 120, Event.complete 1 110]
    [Event.complete 3 230] 3 1 [1, 2]
    ⟨by decide, by decide⟩ (by decide) rfl (by decide) (by decide)

/-- C7: in every valid scheduler run, when `Wait` on a list of task
identifiers reports done — which by definition is exactly when every listed
task has status Completed — each listed task's completion event is already
in the run, and `GetResult` on each listed task yields the stored result
immediately (a present value, no blocking). -/
theorem wait_done_all_completed_and_results_stored
    (g : List (Nat × List Nat)) (es : List Event) (ids : List Nat)
    (hwf : WFGraph g)
    (hrun : execOk (initState g) es = true)
    (hwait : waitDone (exec (initState g) es) ids = true) :
    ∀ i ∈ ids, (∃ v, Event.complete i v ∈ es)
      ∧ (getResult (exec (initState g) es) i).isSome = true := by
  intro i hi
  have hc : isCompleted (exec (initState g) es).tasks i = true := by
    unfold waitDone at hwait
    rw [List.all_eq_true] at hwait
    exact hwait i hi
  have hI := inv_exec (initState g) es hrun (inv_init g hwf)
  obtain ⟨⟨hnd, hpnd⟩, hpend, hready, hres⟩ := hI
  constructor
  · rcases isCompleted_exec_mem (initState g) es i hrun hc with h | h
    · rw [init_not_completed g i] at h
      cases h
    · exact h
  · unfold isCompleted at hc
    cases hlk : lookupTask (exec (initState g) es).tasks i with
    | none =>
        rw [hlk] at hc
        cases hc
    | some t =>
        rw [hlk] at hc
        have hst : t.status = TStatus.completed := by simpa using hc
        have hmem := (lookupTask_some _ _ _ hlk).1
        have hsome := hres t hmem hst
        unfold getResult
        rw [hlk]
        simpa using hsome

/-- Witness for C7 on three independent tasks completing out of launch
order. -/
theorem wait_done_all_completed_and_results_stored_witness :
    (∃ v, Event.complete 11 v ∈ [Event.start 10, Event.start 11, Event.start 12,
      Event.complete 11 2, Event.complete 10 1, Event.complete 12 3])
    ∧ (getResult (exec (initState [(10, []), (11, []), (12, [])])
        [Event.start 10, Event.start 11, Event.start 12,
          Event.complete 11 2, Event.complete 10 1, Event.complete 12 3])
        11).isSome = true :=
  wait_done_all_completed_and_results_stored [(10, []), (11, []), (12, [])]
    [Event.start 10, Event.start 11, Event.start 12,
      Event.complete 11 2, Event.complete 10 1, Event.complete 12 3]
    [10, 11, 12] ⟨by decide, by decide⟩ (by decide) (by decide) 11 (by decide)

end UETraining
